import Mathlib

/-!
Verification of the HTML-to-Markdown batch file-processing pipeline
(`HTMLToMarkdownBatchProcessor`, `HTMLToMarkdownFileManager`, and the
`getMarkdownFileName` utility).

The embedding is a shallow one: the processor's `Map<string, ProcessedFile>`
becomes an association list in insertion order (`Array.from(map.keys())`
iterates in insertion order, so a list is a faithful model); the external
DOM-based sanitizer internals and the Turndown library are oracles passed in
as functions (`dom`, `turndown`), while the wrapper logic of `sanitizeHTML`
and `convertHtmlToMarkdown` (the blank-input shortcuts and the error-message
wrapping) is translated from the source.  The JavaScript host is
single-threaded and `processFile` contains no `await` between its state
mutations, so a `processAll` run is a deterministic sequence of atomic
mutations; we record the state after every mutation in a `trace` so that
"at any instant" properties can be stated.  A rejected promise is modelled
by the `thrown : Option String` field (`Promise.all` rejects with the first
rejection in array order).
-/

/-- Per-file processing status (`ProcessedFile.status`). -/
inductive Status
  | pending
  | processing
  | completed
  | error
deriving DecidableEq, Repr

/-- `ProcessedFile.complexity` summary computed at registration. -/
structure Complexity where
  charCount : Nat
  tagCount : Nat
  isComplex : Bool
deriving DecidableEq, Repr

/-- One `ProcessedFile` record.  Ids are modelled as naturals (uuids in the
source); `createdAt` is a timestamp modelled as a natural. -/
structure FileRec where
  id : Nat
  name : String
  originalContent : String
  markdownContent : String
  status : Status
  error : Option String := none
  size : Nat := 0
  complexity : Complexity := ⟨0, 0, false⟩
  createdAt : Nat := 0
deriving DecidableEq, Repr

/-- `BatchProcessingOptions`. -/
inductive Naming
  | original
  | timestamp
  | indexed
deriving DecidableEq, Repr

structure BatchOptions where
  maxConcurrent : Nat
  autoRetry : Bool
  stopOnError : Bool
  namingConvention : Naming
deriving DecidableEq, Repr

/-- The processor's mutable state: the keyed record store (insertion order)
and the re-entrancy flag `isProcessing`.  The `stateTick` version counter of
the source is a UI-reactivity workaround carrying no information and is
omitted; the unused `processingQueue` field is likewise omitted. -/
structure ProcState where
  files : List FileRec
  isProcessing : Bool
deriving DecidableEq, Repr

/-- `BatchProcessingState`, the derived aggregate returned by the `state`
getter.  `progress` is a JavaScript number in the source; we model it as a
rational. -/
structure BatchState where
  files : List FileRec
  isProcessing : Bool
  progress : ℚ
  totalFiles : Nat
  completedFiles : Nat
  failedFiles : Nat
  pendingFiles : Nat
deriving DecidableEq, Repr

/-- Lifecycle events, in emission order (`BatchProcessingEvents`). -/
inductive Event
  | fileAdded (id : Nat)
  | fileProcessed (id : Nat)
  | fileFailed (id : Nat) (msg : String)
  | progressUpdate (p : ℚ)
  | processingComplete
  | processingError (msg : String)
deriving DecidableEq, Repr

/-- External collaborators and the options, bundled: `turndown` is the
configured Turndown library call (a `TurndownOptions`-configured service;
it may throw, modelled by `Except`), `dom` is the DOM-based cleaning body of
`sanitizeHTML` (`none` models an internal exception there). -/
structure Params where
  turndown : String → Except String String
  dom : String → Option String
  opts : BatchOptions

/-- JavaScript `String.prototype.trim`: strip leading and trailing
whitespace (written at the character level so it computes by kernel
reduction). -/
def jsTrim (s : String) : String :=
  String.mk (((s.toList.dropWhile Char.isWhitespace).reverse.dropWhile Char.isWhitespace).reverse)

/-- `sanitizeHTML` (html-to-markdown.service.ts): blank input returns `""`;
otherwise the DOM cleaning runs, and on an internal exception the original
input is returned. -/
def sanitizeHTML (dom : String → Option String) (html : String) : String :=
  if jsTrim html = "" then ""
  else
    match dom html with
    | some cleaned => cleaned
    | none => html

/-- `convertHtmlToMarkdown` (html-to-markdown.service.ts): blank input
returns `""` without throwing; otherwise the Turndown call runs and a thrown
error is re-thrown with a `Conversion failed: ` prefix. -/
def convertHtmlToMarkdown (turndown : String → Except String String) (html : String) :
    Except String String :=
  if jsTrim html = "" then Except.ok ""
  else
    match turndown html with
    | Except.ok md => Except.ok md
    | Except.error msg => Except.error ("Conversion failed: " ++ msg)

/-- The conversion applied to one record's content, exactly as
`processFile` does it: sanitize, then convert. -/
def convRes (P : Params) (f : FileRec) : Except String String :=
  convertHtmlToMarkdown P.turndown (sanitizeHTML P.dom f.originalContent)

/-- `this.files.get(id)` on the insertion-ordered store. -/
def findFile : List FileRec → Nat → Option FileRec
  | [], _ => none
  | f :: fs, i => if f.id = i then some f else findFile fs i

/-- In-place mutation of the record with the given id (the source mutates
the object held in the map). -/
def updateFile : List FileRec → Nat → (FileRec → FileRec) → List FileRec
  | [], _, _ => []
  | f :: fs, i, g => (if f.id = i then g f else f) :: updateFile fs i g

/-- The `state` getter. -/
def stateSnapshot (st : ProcState) : BatchState :=
  let files := st.files
  let completedFiles := (files.filter (fun f => f.status == Status.completed)).length
  let failedFiles := (files.filter (fun f => f.status == Status.error)).length
  let pendingFiles := (files.filter (fun f => f.status == Status.pending)).length
  let totalFiles := files.length
  { files := files
    isProcessing := st.isProcessing
    progress := if 0 < totalFiles then (completedFiles : ℚ) / (totalFiles : ℚ) * 100 else 0
    totalFiles := totalFiles
    completedFiles := completedFiles
    failedFiles := failedFiles
    pendingFiles := pendingFiles }

/-- Number of records currently in `processing` status (not part of the
`state` getter, but needed to speak about the concurrency bound). -/
def countProcessing (files : List FileRec) : Nat :=
  (files.filter (fun f => f.status == Status.processing)).length

/-- Result of running a (possibly compound) operation: final state, the
intermediate states after each mutation in order (`trace`), the emitted
events in order, and the first rejected promise's message if any
(`thrown`). -/
structure RunRes where
  state : ProcState
  trace : List ProcState
  events : List Event
  thrown : Option String
deriving DecidableEq, Repr

/-- `file.status = 'processing'` (in-place record mutation). -/
def setProcessing (g : FileRec) : FileRec := { g with status := Status.processing }

/-- `file.markdownContent = markdown; file.status = 'completed'` — note the
`error` field is left untouched. -/
def setCompleted (md : String) (g : FileRec) : FileRec :=
  { g with markdownContent := md, status := Status.completed }

/-- `file.status = 'error'; file.error = errorMessage` — note
`markdownContent` is left untouched. -/
def setFailed (msg : String) (g : FileRec) : FileRec :=
  { g with status := Status.error, error := some msg }

/-- `processFile(id)`: absent id or a record already in `processing` is an
immediate return; otherwise mark `processing`, convert, and either complete
(setting `markdownContent`, leaving `error` untouched) or fail (setting
`error`, leaving `markdownContent` untouched); under `stopOnError` a failure
is re-thrown. -/
def processFile (P : Params) (st : ProcState) (id : Nat) : RunRes :=
  match findFile st.files id with
  | none => ⟨st, [], [], none⟩
  | some f =>
    if f.status = Status.processing then ⟨st, [], [], none⟩
    else
      let stP : ProcState := { st with files := updateFile st.files id setProcessing }
      match convRes P f with
      | Except.ok md =>
        let stD : ProcState := { stP with files := updateFile stP.files id (setCompleted md) }
        ⟨stD, [stP, stD], [Event.fileProcessed id], none⟩
      | Except.error msg =>
        let stD : ProcState := { stP with files := updateFile stP.files id (setFailed msg) }
        ⟨stD, [stP, stD], [Event.fileFailed id msg],
          if P.opts.stopOnError then some msg else none⟩

/-- Eligibility filter of `processAll`: `pending`, or `error` when
`autoRetry` is set. -/
def eligible (opts : BatchOptions) (f : FileRec) : Bool :=
  f.status == Status.pending || (f.status == Status.error && opts.autoRetry)

/-- The eligible ids, in store insertion order (`Array.from(keys()).filter`). -/
def eligibleIds (opts : BatchOptions) (files : List FileRec) : List Nat :=
  (files.filter (eligible opts)).map (fun f => f.id)

/-- Fuel-driven chunking; `chunks` below supplies `l.length` as fuel, which
suffices whenever `0 < k`. -/
def chunksFuel (k : Nat) : Nat → List Nat → List (List Nat)
  | _, [] => []
  | 0, _ :: _ => []
  | fuel + 1, x :: xs => (x :: xs).take k :: chunksFuel k fuel ((x :: xs).drop k)

/-- The window decomposition of the `for (i += maxConcurrent)` loop:
consecutive slices of size `k` (the source loop diverges for `k = 0`; every
theorem about it assumes the documented `maxConcurrent ≥ 1`). -/
def chunks (k : Nat) (l : List Nat) : List (List Nat) :=
  chunksFuel k l.length l

/-- `Promise.all(batch.map(id => this.processFile(id)))`: each `processFile`
call runs synchronously to completion in array order (it contains no inner
`await`), and the combined promise rejects with the first rejection. -/
def runBatch (P : Params) : ProcState → List Nat → RunRes
  | st, [] => ⟨st, [], [], none⟩
  | st, id :: rest =>
    let r := processFile P st id
    let r2 := runBatch P r.state rest
    ⟨r2.state, r.trace ++ r2.trace, r.events ++ r2.events,
      match r.thrown with
      | some e => some e
      | none => r2.thrown⟩

/-- The window loop of `processAll`: after each fully-awaited window a
progress update is emitted; a rejection skips that window's progress update
and aborts the remaining windows. -/
def runWindows (P : Params) : ProcState → List (List Nat) → RunRes
  | st, [] => ⟨st, [], [], none⟩
  | st, w :: ws =>
    let r := runBatch P st w
    match r.thrown with
    | some e => ⟨r.state, r.trace, r.events, some e⟩
    | none =>
      let r2 := runWindows P r.state ws
      ⟨r2.state, r.trace ++ r2.trace,
        r.events ++ (Event.progressUpdate (stateSnapshot r.state).progress :: r2.events),
        r2.thrown⟩

/-- `processAll()`: re-entrancy guard, eligible-set computation, the empty
no-op path, the window loop, the `catch` turning a propagated rejection into
`onProcessingError`, and the `finally` clearing the flag. -/
def processAll (P : Params) (st : ProcState) : RunRes :=
  if st.isProcessing then ⟨st, [], [], none⟩
  else
    let st1 : ProcState := { st with isProcessing := true }
    let elig := eligibleIds P.opts st.files
    if elig.isEmpty then
      let stF : ProcState := { st1 with isProcessing := false }
      ⟨stF, [st1, stF],
        [Event.progressUpdate (stateSnapshot st1).progress, Event.processingComplete], none⟩
    else
      let r := runWindows P st1 (chunks P.opts.maxConcurrent elig)
      let stF : ProcState := { r.state with isProcessing := false }
      match r.thrown with
      | none => ⟨stF, st1 :: r.trace ++ [stF], r.events ++ [Event.processingComplete], none⟩
      | some e => ⟨stF, st1 :: r.trace ++ [stF], r.events ++ [Event.processingError e], none⟩

/-- The reset loop of `retryFailedFiles`: every `error` record back to
`pending` with its `error` field cleared. -/
def resetErrors (files : List FileRec) : List FileRec :=
  files.map (fun f =>
    if f.status = Status.error then { f with status := Status.pending, error := none } else f)

/-- `retryFailedFiles()`: reset, then `processAll`. -/
def retryFailedFiles (P : Params) (st : ProcState) : RunRes :=
  processAll P { st with files := resetErrors st.files }

/-- Case-insensitive suffix test, at the character level. -/
def endsWithCI (s suffix : String) : Bool :=
  List.isPrefixOf ((suffix.toList.map Char.toLower).reverse) ((s.toList.map Char.toLower).reverse)

/-- The `baseName` computation of `getMarkdownFileName`:
`originalName.replace(/\.(html|htm)$/i, '')` (the regex alternation tries
`html` before `htm`, anchored at the end, case-insensitively). -/
def stripHtmlExt (name : String) : String :=
  if endsWithCI name ".html" then String.mk (name.toList.take (name.toList.length - 5))
  else if endsWithCI name ".htm" then String.mk (name.toList.take (name.toList.length - 4))
  else name

/-- `String(index).padStart(3, '0')`. -/
def padStart3 (s : String) : String :=
  if 3 ≤ s.toList.length then s
  else String.mk (List.replicate (3 - s.toList.length) '0' ++ s.toList)

/-- `getMarkdownFileName` (html-to-markdown-batch.service.ts).  `now` models
`Date.now()` for the `timestamp` convention. -/
def getMarkdownFileName (originalName : String) (convention : Naming) (index : Nat) (now : Nat) :
    String :=
  match convention with
  | Naming.timestamp => stripHtmlExt originalName ++ "_" ++ toString now ++ ".md"
  | Naming.indexed => stripHtmlExt originalName ++ "_" ++ padStart3 (toString index) ++ ".md"
  | Naming.original => stripHtmlExt originalName ++ ".md"

/-- The entry-adding loop of `HTMLToMarkdownFileManager.createZipFromFiles`,
carrying the loop index: an entry is added for a record exactly when its
status is `completed` and its `markdownContent` is truthy (non-empty). -/
def zipEntriesFrom (conv : Naming) (now : Nat) : Nat → List FileRec → List (String × String)
  | _, [] => []
  | i, f :: fs =>
    (if f.status = Status.completed ∧ f.markdownContent ≠ "" then
      [(getMarkdownFileName f.name conv i now, f.markdownContent)]
    else []) ++ zipEntriesFrom conv now (i + 1) fs

/-- `createZipFromFiles`, modelled up to the external JSZip writer: the
result is the ordered list of `(name, content)` entries passed to
`zip.file`. -/
def createZipFromFiles (files : List FileRec) (conv : Naming) (now : Nat) :
    List (String × String) :=
  zipEntriesFrom conv now 0 files

/-! ### Concrete fixtures used by witnesses and counterexamples -/

/-- A Turndown oracle that fails exactly on the content `"BAD"`. -/
def exTurndown : String → Except String String :=
  fun s => if s = "BAD" then Except.error "boom" else Except.ok ("MD:" ++ s)

def exDom : String → Option String := fun _ => none

def exOpts : BatchOptions :=
  { maxConcurrent := 2, autoRetry := false, stopOnError := false
    namingConvention := Naming.original }

def exParams : Params := ⟨exTurndown, exDom, exOpts⟩

def exFileA : FileRec :=
  { id := 1, name := "a.html", originalContent := "x", markdownContent := ""
    status := Status.pending }

def exFileB : FileRec :=
  { id := 2, name := "b.html", originalContent := "y", markdownContent := ""
    status := Status.pending }

def exFileC : FileRec :=
  { id := 3, name := "c.html", originalContent := "z", markdownContent := ""
    status := Status.pending }

def exFileBad : FileRec :=
  { id := 2, name := "b.html", originalContent := "BAD", markdownContent := ""
    status := Status.pending }

def exSt3 : ProcState := { files := [exFileA, exFileB, exFileC], isProcessing := false }

/-! ### Helper lemmas -/

theorem statusCount (l : List FileRec) :
    (l.filter (fun f => f.status == Status.completed)).length +
      (l.filter (fun f => f.status == Status.error)).length +
      (l.filter (fun f => f.status == Status.pending)).length +
      (l.filter (fun f => f.status == Status.processing)).length = l.length := by
  induction l with
  | nil => rfl
  | cons f fs ih => cases hf : f.status <;> simp [List.filter_cons, hf] <;> omega

/-! ### Claim theorems -/

/-- C9: the single-file naming function is deterministic (it is a pure
function of its arguments) for the `original` and `indexed` conventions;
`getMarkdownFileName "report.html" indexed 0` gives `"report_000.md"` and
under `original` the result is `"report.md"` for any index. -/
theorem claim_C9 :
    (∀ now, getMarkdownFileName "report.html" Naming.indexed 0 now = "report_000.md") ∧
    (∀ index now, getMarkdownFileName "report.html" Naming.original index now = "report.md") := by
  constructor
  · intro now; rfl
  · intro index now; rfl

/-- C10: `processFile(id)` on an id that is absent from the store, or whose
record is already in `processing` status, returns immediately: no record is
modified, no event is emitted, nothing is thrown. -/
theorem claim_C10 (P : Params) (st : ProcState) (id : Nat)
    (h : findFile st.files id = none ∨
      ∃ f, findFile st.files id = some f ∧ f.status = Status.processing) :
    processFile P st id = ⟨st, [], [], none⟩ := by
  unfold processFile
  rcases h with h | ⟨f, hf, hs⟩
  · rw [h]
  · rw [hf]; simp [hs]

theorem claim_C10_witness :
    (findFile exSt3.files 99 = none ∨
      ∃ f, findFile exSt3.files 99 = some f ∧ f.status = Status.processing) ∧
    processFile exParams exSt3 99 = ⟨exSt3, [], [], none⟩ :=
  ⟨Or.inl (by decide), claim_C10 exParams exSt3 99 (Or.inl (by decide))⟩

/-- C5: re-entrancy: a `processAll` call made while a batch is in flight
returns immediately with no state change and no events; and starting from a
quiescent state, every exit path of `processAll` leaves the in-flight flag
cleared, so a subsequent call can proceed. -/
theorem claim_C5 (P : Params) (st : ProcState) :
    (st.isProcessing = true → processAll P st = ⟨st, [], [], none⟩) ∧
    (st.isProcessing = false → (processAll P st).state.isProcessing = false) := by
  constructor
  · intro h
    unfold processAll
    simp [h]
  · intro h
    unfold processAll
    simp only [h, Bool.false_eq_true, if_false]
    split
    · rfl
    · split <;> rfl

theorem claim_C5_witness :
    (processAll exParams { exSt3 with isProcessing := true } =
      ⟨{ exSt3 with isProcessing := true }, [], [], none⟩) ∧
    (processAll exParams exSt3).state.isProcessing = false :=
  ⟨(claim_C5 exParams { exSt3 with isProcessing := true }).1 rfl,
   (claim_C5 exParams exSt3).2 rfl⟩

/-- C8: calling `processAll` when no record is eligible (no `pending`
record, and no `error` record when `autoRetry` is enabled) leaves every
record (indeed the whole state) unchanged, and emits exactly one
progress-update event followed by exactly one processing-complete event. -/
theorem claim_C8 (P : Params) (st : ProcState)
    (hflag : st.isProcessing = false)
    (hnp : ∀ f ∈ st.files, f.status ≠ Status.pending)
    (hne : P.opts.autoRetry = true → ∀ f ∈ st.files, f.status ≠ Status.error) :
    (processAll P st).state = st ∧
    (processAll P st).events =
      [Event.progressUpdate (stateSnapshot st).progress, Event.processingComplete] := by
  have hfil : st.files.filter (eligible P.opts) = [] := by
    rw [List.filter_eq_nil_iff]
    intro f hf
    have h1 := hnp f hf
    cases hr : P.opts.autoRetry with
    | true =>
      have h2 := hne hr f hf
      simp [eligible, hr, h1, h2]
    | false => simp [eligible, hr, h1]
  have he : eligibleIds P.opts st.files = [] := by
    unfold eligibleIds
    rw [hfil]
    rfl
  obtain ⟨files, flag⟩ := st
  simp only at hflag
  subst hflag
  simp only at he
  constructor
  · simp [processAll, he]
  · simp [processAll, he]
    rfl

def exStQuiet : ProcState :=
  { files := [{ exFileA with status := Status.completed, markdownContent := "m" }]
    isProcessing := false }

theorem claim_C8_witness :
    (processAll exParams exStQuiet).state = exStQuiet ∧
    (processAll exParams exStQuiet).events =
      [Event.progressUpdate (stateSnapshot exStQuiet).progress, Event.processingComplete] :=
  claim_C8 exParams exStQuiet rfl (by decide) (by decide)

/-- C2, corrected: the three counts published by the `state` getter do not
always sum to the total, because a record currently in `processing` status
is counted in `totalFiles` but in none of `completedFiles` / `failedFiles` /
`pendingFiles`; the correct aggregate invariant adds the number of
`processing` records.  This holds for every state whatsoever, in particular
at every snapshot taken during a `processAll` run. -/
theorem claim_C2_amended (st : ProcState) :
    (stateSnapshot st).completedFiles + (stateSnapshot st).failedFiles +
      (stateSnapshot st).pendingFiles + countProcessing st.files =
      (stateSnapshot st).totalFiles := by
  simpa [stateSnapshot, countProcessing] using statusCount st.files

/-- C2, counterexample to the claim as stated: during a `processAll` run on
a single pending file there is an observation point (the snapshot taken
right after the record enters `processing`) where
`completedFiles + failedFiles + pendingFiles = 0` but `totalFiles = 1`. -/
theorem claim_C2_cex :
    ∃ s ∈ (processAll exParams { files := [exFileA], isProcessing := false }).trace,
      (stateSnapshot s).completedFiles + (stateSnapshot s).failedFiles +
        (stateSnapshot s).pendingFiles ≠ (stateSnapshot s).totalFiles := by
  decide

theorem zipEntriesFrom_eq (conv : Naming) (now : Nat) (files : List FileRec) :
    ∀ i, zipEntriesFrom conv now i files =
      ((List.enumFrom i files).filter
        (fun p => decide (p.2.status = Status.completed ∧ p.2.markdownContent ≠ ""))).map
        (fun p => (getMarkdownFileName p.2.name conv p.1 now, p.2.markdownContent)) := by
  induction files with
  | nil => intro i; rfl
  | cons f fs ih =>
    intro i
    by_cases h : f.status = Status.completed ∧ f.markdownContent ≠ ""
    · simp [zipEntriesFrom, List.enumFrom_cons, List.filter_cons, h, ih]
    · simp [zipEntriesFrom, List.enumFrom_cons, List.filter_cons, h, ih]

/-- C7, amended: the ZIP builder produces exactly one archive entry per
record whose status is `completed` and whose `markdownContent` is non-empty
(records not completed, and completed records whose converted content is
empty, are silently excluded, never an error), and each entry is named by
`getMarkdownFileName` applied to the record's original name, the naming
convention, and the record's index in the input list. -/
theorem claim_C7_amended (files : List FileRec) (conv : Naming) (now : Nat) :
    createZipFromFiles files conv now =
      ((files.enum.filter
        (fun p => decide (p.2.status = Status.completed ∧ p.2.markdownContent ≠ ""))).map
        (fun p => (getMarkdownFileName p.2.name conv p.1 now, p.2.markdownContent)) : List _) := by
  unfold createZipFromFiles List.enum
  exact zipEntriesFrom_eq conv now files 0

/-- C7, counterexample to the claim as stated: a list holding exactly one
`completed` record (whose converted content is empty, as happens for a blank
input file) yields an archive with zero entries, not one entry per completed
record. -/
theorem claim_C7_cex :
    ((([{ exFileA with status := Status.completed, markdownContent := "" }] : List FileRec).filter
      (fun f => f.status == Status.completed)).length = 1) ∧
    createZipFromFiles [{ exFileA with status := Status.completed, markdownContent := "" }]
      Naming.original 0 = [] := by
  decide

/-- The net effect of a successful `processFile` pass on the record it
processes (derived helper, characterized against `processFile` below):
completion sets `markdownContent` and the status, failure sets the status
and the message; all other fields ride along unchanged. -/
def applyConv (P : Params) (f : FileRec) : FileRec :=
  match convRes P f with
  | Except.ok md => { f with markdownContent := md, status := Status.completed }
  | Except.error msg => { f with status := Status.error, error := some msg }

theorem applyConv_status (P : Params) (f : FileRec) :
    (applyConv P f).status = Status.completed ∨ (applyConv P f).status = Status.error := by
  unfold applyConv
  cases convRes P f with
  | ok md => exact Or.inl rfl
  | error msg => exact Or.inr rfl

theorem findFile_updateFile_self (l : List FileRec) (i : Nat) (g : FileRec → FileRec)
    (hg : ∀ x, (g x).id = x.id) :
    findFile (updateFile l i g) i = (findFile l i).map g := by
  induction l with
  | nil => rfl
  | cons f fs ih =>
    simp only [updateFile]
    by_cases h : f.id = i
    · simp [findFile, h, hg f]
    · simp [findFile, h, ih]

theorem findFile_updateFile_ne (l : List FileRec) (i j : Nat) (g : FileRec → FileRec)
    (hg : ∀ x, (g x).id = x.id) (hne : j ≠ i) :
    findFile (updateFile l i g) j = findFile l j := by
  induction l with
  | nil => rfl
  | cons f fs ih =>
    simp only [updateFile]
    by_cases h : f.id = i
    · have h1 : (g f).id = i := by rw [hg f, h]
      have h2 : ¬i = j := fun hc => hne hc.symm
      simp [findFile, h1, h, h2, ih]
    · simp [findFile, h, ih]

theorem updateFile_ids (l : List FileRec) (i : Nat) (g : FileRec → FileRec)
    (hg : ∀ x, (g x).id = x.id) :
    (updateFile l i g).map (fun f => f.id) = l.map (fun f => f.id) := by
  induction l with
  | nil => rfl
  | cons f fs ih =>
    simp only [updateFile]
    by_cases h : f.id = i
    · simp [h, hg f, ih]
    · simp [h, ih]

theorem mem_updateFile (l : List FileRec) (i : Nat) (g : FileRec → FileRec) (x : FileRec)
    (hx : x ∈ updateFile l i g) : (∃ y ∈ l, x = g y) ∨ x ∈ l := by
  induction l with
  | nil => cases hx
  | cons f fs ih =>
    simp only [updateFile, List.mem_cons] at hx
    rcases hx with hx | hx
    · by_cases h : f.id = i
      · rw [h] at hx
        simp only [if_pos rfl] at hx
        exact Or.inl ⟨f, List.mem_cons_self f fs, hx⟩
      · rw [if_neg h] at hx
        exact Or.inr (by simp [hx])
    · rcases ih hx with ⟨y, hy, hxy⟩ | hmem
      · exact Or.inl ⟨y, List.mem_cons_of_mem f hy, hxy⟩
      · exact Or.inr (List.mem_cons_of_mem f hmem)

theorem processFile_skip (P : Params) (st : ProcState) (id : Nat)
    (h : findFile st.files id = none ∨
      ∃ f, findFile st.files id = some f ∧ f.status = Status.processing) :
    processFile P st id = ⟨st, [], [], none⟩ := by
  unfold processFile
  rcases h with h | ⟨f, hf, hs⟩
  · rw [h]
  · rw [hf]; simp [hs]

theorem processFile_eq_ok (P : Params) (st : ProcState) (id : Nat) (f : FileRec) (md : String)
    (hf : findFile st.files id = some f) (hs : f.status ≠ Status.processing)
    (hc : convRes P f = Except.ok md) :
    processFile P st id =
      ⟨⟨updateFile (updateFile st.files id setProcessing) id (setCompleted md),
        st.isProcessing⟩,
       [⟨updateFile st.files id setProcessing, st.isProcessing⟩,
        ⟨updateFile (updateFile st.files id setProcessing) id (setCompleted md),
         st.isProcessing⟩],
       [Event.fileProcessed id], none⟩ := by
  unfold processFile
  rw [hf]
  simp [hs, hc]

theorem processFile_eq_err (P : Params) (st : ProcState) (id : Nat) (f : FileRec) (msg : String)
    (hf : findFile st.files id = some f) (hs : f.status ≠ Status.processing)
    (hc : convRes P f = Except.error msg) :
    processFile P st id =
      ⟨⟨updateFile (updateFile st.files id setProcessing) id (setFailed msg),
        st.isProcessing⟩,
       [⟨updateFile st.files id setProcessing, st.isProcessing⟩,
        ⟨updateFile (updateFile st.files id setProcessing) id (setFailed msg),
         st.isProcessing⟩],
       [Event.fileFailed id msg], if P.opts.stopOnError then some msg else none⟩ := by
  unfold processFile
  rw [hf]
  simp [hs, hc]

/-- C3, amended: the `processing -> completed` transition of `processFile`
sets the converted content to the converter's output — which may be the
empty string, e.g. for a blank input file — and leaves the `error` field
unchanged (it is not cleared); the `processing -> error` transition sets the
`error` message and leaves `markdownContent` unchanged.  Consequently
neither `markdownContent` non-empty iff `completed` nor `error` set iff
status `error` holds in general. -/
theorem claim_C3_amended (P : Params) (st : ProcState) (id : Nat) (f : FileRec)
    (hf : findFile st.files id = some f) (hs : f.status ≠ Status.processing) :
    (∀ md, convRes P f = Except.ok md →
      findFile (processFile P st id).state.files id =
        some { f with markdownContent := md, status := Status.completed }) ∧
    (∀ msg, convRes P f = Except.error msg →
      findFile (processFile P st id).state.files id =
        some { f with status := Status.error, error := some msg }) := by
  constructor
  · intro md hc
    simp only [processFile_eq_ok P st id f md hf hs hc]
    rw [findFile_updateFile_self _ id (setCompleted md) (fun x => rfl),
      findFile_updateFile_self _ id setProcessing (fun x => rfl), hf]
    rfl
  · intro msg hc
    simp only [processFile_eq_err P st id f msg hf hs hc]
    rw [findFile_updateFile_self _ id (setFailed msg) (fun x => rfl),
      findFile_updateFile_self _ id setProcessing (fun x => rfl), hf]
    rfl

theorem claim_C3_witness :
    findFile (processFile exParams { files := [exFileA], isProcessing := false } 1).state.files 1 =
      some { exFileA with markdownContent := "MD:x", status := Status.completed } :=
  (claim_C3_amended exParams { files := [exFileA], isProcessing := false } 1 exFileA
    (by decide) (by decide)).1 "MD:x" rfl

def cexP3a : Params :=
  ⟨exTurndown, exDom,
    { maxConcurrent := 2, autoRetry := false, stopOnError := false
      namingConvention := Naming.original }⟩

/-- Second run with changed converter options (`updateTurndownOptions`) and
`autoRetry` enabled (`updateBatchOptions`), both public operations. -/
def cexP3b : Params :=
  ⟨fun _ => Except.ok "fixed", exDom,
    { maxConcurrent := 2, autoRetry := true, stopOnError := false
      namingConvention := Naming.original }⟩

def cexSt3 : ProcState :=
  { files :=
      [{ id := 1, name := "a.html", originalContent := "", markdownContent := ""
         status := Status.pending },
       { id := 2, name := "b.html", originalContent := "BAD", markdownContent := ""
         status := Status.pending }]
    isProcessing := false }

/-- C3, counterexample to the claim as stated: after a `processAll` run on a
blank file and a failing file, followed by an `autoRetry` re-run under
changed converter options, the store holds a `completed` record with empty
`markdownContent` (the blank file) and a `completed` record whose `error`
field is still set (the retried file — the success path never clears
`error`). -/
theorem claim_C3_cex :
    (∃ f ∈ (processAll cexP3b (processAll cexP3a cexSt3).state).state.files,
      f.status = Status.completed ∧ f.markdownContent = "") ∧
    (∃ f ∈ (processAll cexP3b (processAll cexP3a cexSt3).state).state.files,
      f.status = Status.completed ∧ f.error ≠ none) := by
  decide

theorem processFile_isProcessing (P : Params) (st : ProcState) (id : Nat) :
    (processFile P st id).state.isProcessing = st.isProcessing := by
  cases hf : findFile st.files id with
  | none => rw [processFile_skip P st id (Or.inl hf)]
  | some f =>
    by_cases hs : f.status = Status.processing
    · rw [processFile_skip P st id (Or.inr ⟨f, hf, hs⟩)]
    · cases hc : convRes P f with
      | ok md => rw [processFile_eq_ok P st id f md hf hs hc]
      | error msg => rw [processFile_eq_err P st id f msg hf hs hc]

theorem processFile_ids (P : Params) (st : ProcState) (id : Nat) :
    (processFile P st id).state.files.map (fun f => f.id) = st.files.map (fun f => f.id) := by
  cases hf : findFile st.files id with
  | none => rw [processFile_skip P st id (Or.inl hf)]
  | some f =>
    by_cases hs : f.status = Status.processing
    · rw [processFile_skip P st id (Or.inr ⟨f, hf, hs⟩)]
    · cases hc : convRes P f with
      | ok md =>
        rw [processFile_eq_ok P st id f md hf hs hc]
        show (updateFile (updateFile st.files id setProcessing) id (setCompleted md)).map _ = _
        rw [updateFile_ids _ _ (setCompleted md) (fun x => rfl),
          updateFile_ids _ _ setProcessing (fun x => rfl)]
      | error msg =>
        rw [processFile_eq_err P st id f msg hf hs hc]
        show (updateFile (updateFile st.files id setProcessing) id (setFailed msg)).map _ = _
        rw [updateFile_ids _ _ (setFailed msg) (fun x => rfl),
          updateFile_ids _ _ setProcessing (fun x => rfl)]

theorem processFile_find_ne (P : Params) (st : ProcState) (id j : Nat) (hne : j ≠ id) :
    findFile (processFile P st id).state.files j = findFile st.files j := by
  cases hf : findFile st.files id with
  | none => rw [processFile_skip P st id (Or.inl hf)]
  | some f =>
    by_cases hs : f.status = Status.processing
    · rw [processFile_skip P st id (Or.inr ⟨f, hf, hs⟩)]
    · cases hc : convRes P f with
      | ok md =>
        rw [processFile_eq_ok P st id f md hf hs hc]
        show findFile (updateFile (updateFile st.files id setProcessing) id (setCompleted md)) j = _
        rw [findFile_updateFile_ne _ _ _ (setCompleted md) (fun x => rfl) hne,
          findFile_updateFile_ne _ _ _ setProcessing (fun x => rfl) hne]
      | error msg =>
        rw [processFile_eq_err P st id f msg hf hs hc]
        show findFile (updateFile (updateFile st.files id setProcessing) id (setFailed msg)) j = _
        rw [findFile_updateFile_ne _ _ _ (setFailed msg) (fun x => rfl) hne,
          findFile_updateFile_ne _ _ _ setProcessing (fun x => rfl) hne]

theorem processFile_find_self (P : Params) (st : ProcState) (id : Nat) (f : FileRec)
    (hf : findFile st.files id = some f) (hs : f.status ≠ Status.processing) :
    findFile (processFile P st id).state.files id = some (applyConv P f) := by
  cases hc : convRes P f with
  | ok md =>
    have h := (claim_C3_amended P st id f hf hs).1 md hc
    rw [h]
    unfold applyConv
    rw [hc]
  | error msg =>
    have h := (claim_C3_amended P st id f hf hs).2 msg hc
    rw [h]
    unfold applyConv
    rw [hc]

theorem processFile_thrown_none (P : Params) (st : ProcState) (id : Nat)
    (hstop : P.opts.stopOnError = false) :
    (processFile P st id).thrown = none := by
  cases hf : findFile st.files id with
  | none => rw [processFile_skip P st id (Or.inl hf)]
  | some f =>
    by_cases hs : f.status = Status.processing
    · rw [processFile_skip P st id (Or.inr ⟨f, hf, hs⟩)]
    · cases hc : convRes P f with
      | ok md => rw [processFile_eq_ok P st id f md hf hs hc]
      | error msg =>
        rw [processFile_eq_err P st id f msg hf hs hc]
        simp [hstop]

theorem processFile_events_cases (P : Params) (st : ProcState) (id : Nat) :
    ∀ e ∈ (processFile P st id).events,
      (∃ i, e = Event.fileProcessed i) ∨ ∃ i m, e = Event.fileFailed i m := by
  cases hf : findFile st.files id with
  | none => rw [processFile_skip P st id (Or.inl hf)]; intro e he; cases he
  | some f =>
    by_cases hs : f.status = Status.processing
    · rw [processFile_skip P st id (Or.inr ⟨f, hf, hs⟩)]; intro e he; cases he
    · cases hc : convRes P f with
      | ok md =>
        rw [processFile_eq_ok P st id f md hf hs hc]
        intro e he
        simp only [List.mem_singleton] at he
        exact Or.inl ⟨id, he⟩
      | error msg =>
        rw [processFile_eq_err P st id f msg hf hs hc]
        intro e he
        simp only [List.mem_singleton] at he
        exact Or.inr ⟨id, msg, he⟩

theorem updateFile_updateFile (l : List FileRec) (i : Nat) (g1 g2 : FileRec → FileRec)
    (hg1 : ∀ x, (g1 x).id = x.id) :
    updateFile (updateFile l i g1) i g2 = updateFile l i (fun x => g2 (g1 x)) := by
  induction l with
  | nil => rfl
  | cons f fs ih =>
    simp only [updateFile]
    by_cases h : f.id = i
    · have h1 : (g1 f).id = i := by rw [hg1 f, h]
      simp [h, h1, ih]
    · simp [h, ih]

theorem countProcessing_nil : countProcessing [] = 0 := rfl

theorem countProcessing_cons (f : FileRec) (fs : List FileRec) :
    countProcessing (f :: fs) =
      (if f.status = Status.processing then 1 else 0) + countProcessing fs := by
  by_cases h : f.status = Status.processing
  · simp [countProcessing, List.filter_cons, h]
    omega
  · simp [countProcessing, List.filter_cons, h]

theorem countProcessing_zero_status (l : List FileRec) (h : countProcessing l = 0) :
    ∀ f ∈ l, f.status ≠ Status.processing := by
  induction l with
  | nil => intro f hf; cases hf
  | cons f fs ih =>
    rw [countProcessing_cons] at h
    intro x hx
    rcases List.mem_cons.mp hx with hx | hx
    · subst hx
      intro hst
      rw [if_pos hst] at h
      omega
    · exact ih (by omega) x hx

theorem countProcessing_updateFile_zero (l : List FileRec) (i : Nat) (g : FileRec → FileRec)
    (h0 : countProcessing l = 0) (hg : ∀ x, (g x).status ≠ Status.processing) :
    countProcessing (updateFile l i g) = 0 := by
  induction l with
  | nil => rfl
  | cons f fs ih =>
    rw [countProcessing_cons] at h0
    have hf : f.status ≠ Status.processing := by
      intro hst
      rw [if_pos hst] at h0
      omega
    have hfs : countProcessing fs = 0 := by
      by_cases hst : f.status = Status.processing
      · exact absurd hst hf
      · rw [if_neg hst] at h0; omega
    simp only [updateFile]
    rw [countProcessing_cons, ih hfs]
    by_cases h : f.id = i
    · simp [h, hg f]
    · simp [h, hf]

theorem countProcessing_updateFile_le_one (l : List FileRec) (i : Nat) (g : FileRec → FileRec)
    (h0 : countProcessing l = 0) (hnd : (l.map (fun f => f.id)).Nodup) :
    countProcessing (updateFile l i g) ≤ 1 := by
  induction l with
  | nil => simp [updateFile, countProcessing_nil]
  | cons f fs ih =>
    rw [countProcessing_cons] at h0
    have hf : f.status ≠ Status.processing := by
      intro hst
      rw [if_pos hst] at h0
      omega
    have hfs : countProcessing fs = 0 := by
      rw [if_neg hf] at h0; omega
    simp only [List.map_cons, List.nodup_cons] at hnd
    obtain ⟨hfid, hnd2⟩ := hnd
    simp only [updateFile]
    rw [countProcessing_cons]
    by_cases h : f.id = i
    · have hfu : updateFile fs i g = fs := by
        have : findFile fs i = none := by
          subst h
          clear ih h0 hfs
          induction fs with
          | nil => rfl
          | cons x xs ihx =>
            simp only [List.map_cons, List.mem_cons] at hfid hnd2
            push_neg at hfid
            simp only [findFile, if_neg (fun hc : x.id = f.id => hfid.1 hc.symm)]
            simp only [List.nodup_cons] at hnd2
            exact ihx hfid.2 hnd2.2
        clear ih h0 hfs hfid hnd2
        induction fs with
        | nil => rfl
        | cons x xs ihx =>
          simp only [findFile] at this
          by_cases hx : x.id = i
          · rw [if_pos hx] at this; cases this
          · rw [if_neg hx] at this
            simp only [updateFile, if_neg hx]
            rw [ihx this]
      rw [if_pos h, hfu, hfs]
      split <;> omega
    · rw [if_neg h, if_neg hf]
      have := ih hfs hnd2
      omega

theorem processFile_count (P : Params) (st : ProcState) (id : Nat)
    (h0 : countProcessing st.files = 0) (hnd : (st.files.map (fun f => f.id)).Nodup) :
    countProcessing (processFile P st id).state.files = 0 ∧
    ∀ s ∈ (processFile P st id).trace, countProcessing s.files ≤ 1 := by
  cases hf : findFile st.files id with
  | none =>
    rw [processFile_skip P st id (Or.inl hf)]
    exact ⟨h0, by intro s hs; cases hs⟩
  | some f =>
    by_cases hs : f.status = Status.processing
    · rw [processFile_skip P st id (Or.inr ⟨f, hf, hs⟩)]
      exact ⟨h0, by intro s hs2; cases hs2⟩
    · cases hc : convRes P f with
      | ok md =>
        rw [processFile_eq_ok P st id f md hf hs hc]
        have hz : countProcessing
            (updateFile (updateFile st.files id setProcessing) id (setCompleted md)) = 0 := by
          rw [updateFile_updateFile st.files id setProcessing (setCompleted md) (fun x => rfl)]
          exact countProcessing_updateFile_zero _ _ _ h0
            (fun x => by simp [setProcessing, setCompleted])
        refine ⟨hz, ?_⟩
        intro s hsmem
        rcases List.mem_cons.mp hsmem with rfl | hsmem2
        · exact countProcessing_updateFile_le_one _ _ _ h0 hnd
        rcases List.mem_cons.mp hsmem2 with rfl | hsmem3
        · exact le_trans (le_of_eq hz) (by omega)
        · cases hsmem3
      | error msg =>
        rw [processFile_eq_err P st id f msg hf hs hc]
        have hz : countProcessing
            (updateFile (updateFile st.files id setProcessing) id (setFailed msg)) = 0 := by
          rw [updateFile_updateFile st.files id setProcessing (setFailed msg) (fun x => rfl)]
          exact countProcessing_updateFile_zero _ _ _ h0
            (fun x => by simp [setProcessing, setFailed])
        refine ⟨hz, ?_⟩
        intro s hsmem
        rcases List.mem_cons.mp hsmem with rfl | hsmem2
        · exact countProcessing_updateFile_le_one _ _ _ h0 hnd
        rcases List.mem_cons.mp hsmem2 with rfl | hsmem3
        · exact le_trans (le_of_eq hz) (by omega)
        · cases hsmem3

theorem runBatch_cons_def (P : Params) (st : ProcState) (id : Nat) (rest : List Nat) :
    runBatch P st (id :: rest) =
      ⟨(runBatch P (processFile P st id).state rest).state,
       (processFile P st id).trace ++ (runBatch P (processFile P st id).state rest).trace,
       (processFile P st id).events ++ (runBatch P (processFile P st id).state rest).events,
       match (processFile P st id).thrown with
       | some e => some e
       | none => (runBatch P (processFile P st id).state rest).thrown⟩ := rfl

theorem runBatch_isProcessing (P : Params) (ids : List Nat) : ∀ st : ProcState,
    (runBatch P st ids).state.isProcessing = st.isProcessing := by
  induction ids with
  | nil => intro st; rfl
  | cons id rest ih =>
    intro st
    rw [runBatch_cons_def]
    show (runBatch P (processFile P st id).state rest).state.isProcessing = _
    rw [ih, processFile_isProcessing]

theorem runBatch_ids (P : Params) (ids : List Nat) : ∀ st : ProcState,
    (runBatch P st ids).state.files.map (fun f => f.id) = st.files.map (fun f => f.id) := by
  induction ids with
  | nil => intro st; rfl
  | cons id rest ih =>
    intro st
    rw [runBatch_cons_def]
    show (runBatch P (processFile P st id).state rest).state.files.map _ = _
    rw [ih, processFile_ids]

theorem runBatch_find_ne (P : Params) (ids : List Nat) : ∀ (st : ProcState) (j : Nat), j ∉ ids →
    findFile (runBatch P st ids).state.files j = findFile st.files j := by
  induction ids with
  | nil => intro st j hj; rfl
  | cons id rest ih =>
    intro st j hj
    rw [runBatch_cons_def]
    show findFile (runBatch P (processFile P st id).state rest).state.files j = _
    rw [ih _ j (fun hc => hj (List.mem_cons_of_mem id hc)),
      processFile_find_ne P st id j (fun hc => hj (hc ▸ List.mem_cons_self id rest))]

theorem runBatch_count (P : Params) (ids : List Nat) : ∀ st : ProcState,
    countProcessing st.files = 0 → (st.files.map (fun f => f.id)).Nodup →
    countProcessing (runBatch P st ids).state.files = 0 ∧
    ∀ s ∈ (runBatch P st ids).trace, countProcessing s.files ≤ 1 := by
  induction ids with
  | nil =>
    intro st h0 hnd
    exact ⟨h0, by intro s hs; cases hs⟩
  | cons id rest ih =>
    intro st h0 hnd
    obtain ⟨hpc0, hpctr⟩ := processFile_count P st id h0 hnd
    have hnd2 : ((processFile P st id).state.files.map (fun f => f.id)).Nodup := by
      rw [processFile_ids]; exact hnd
    obtain ⟨hb0, hbtr⟩ := ih (processFile P st id).state hpc0 hnd2
    rw [runBatch_cons_def]
    refine ⟨hb0, ?_⟩
    intro s hs
    rcases List.mem_append.mp hs with hs | hs
    · exact hpctr s hs
    · exact hbtr s hs

theorem runBatch_thrown_none (P : Params) (ids : List Nat)
    (hstop : P.opts.stopOnError = false) : ∀ st,
    (runBatch P st ids).thrown = none := by
  induction ids with
  | nil => intro st; rfl
  | cons id rest ih =>
    intro st
    rw [runBatch_cons_def]
    show (match (processFile P st id).thrown with
      | some e => some e
      | none => (runBatch P (processFile P st id).state rest).thrown) = none
    rw [processFile_thrown_none P st id hstop, ih]

theorem runBatch_events_cases (P : Params) (ids : List Nat) : ∀ st,
    ∀ e ∈ (runBatch P st ids).events,
      (∃ i, e = Event.fileProcessed i) ∨ ∃ i m, e = Event.fileFailed i m := by
  induction ids with
  | nil => intro st e he; cases he
  | cons id rest ih =>
    intro st e he
    rw [runBatch_cons_def] at he
    rcases List.mem_append.mp he with he | he
    · exact processFile_events_cases P st id e he
    · exact ih _ e he

theorem runBatch_cons_state (P : Params) (st : ProcState) (id : Nat) (rest : List Nat) :
    (runBatch P st (id :: rest)).state = (runBatch P (processFile P st id).state rest).state := rfl

theorem runBatch_cons_events (P : Params) (st : ProcState) (id : Nat) (rest : List Nat) :
    (runBatch P st (id :: rest)).events =
      (processFile P st id).events ++ (runBatch P (processFile P st id).state rest).events := rfl

theorem runBatch_cons_thrown (P : Params) (st : ProcState) (id : Nat) (rest : List Nat) :
    (runBatch P st (id :: rest)).thrown =
      match (processFile P st id).thrown with
      | some e => some e
      | none => (runBatch P (processFile P st id).state rest).thrown := rfl

theorem runBatch_outcome (P : Params) (ids : List Nat) : ∀ st : ProcState,
    ids.Nodup →
    (∀ j ∈ ids, ∃ f, findFile st.files j = some f ∧
      (f.status = Status.pending ∨ f.status = Status.error)) →
    ∀ j ∈ ids, ∃ f, findFile st.files j = some f ∧
      findFile (runBatch P st ids).state.files j = some (applyConv P f) := by
  induction ids with
  | nil => intro st _ _ j hj; cases hj
  | cons id rest ih =>
    intro st hnd hpres j hj
    have hndr : rest.Nodup := (List.nodup_cons.mp hnd).2
    have hidnr : id ∉ rest := (List.nodup_cons.mp hnd).1
    obtain ⟨fid, hfid, hsid⟩ := hpres id (List.mem_cons_self id rest)
    have hsid2 : fid.status ≠ Status.processing := by
      rcases hsid with h | h <;> simp [h]
    have hpres2 : ∀ j2 ∈ rest, ∃ f, findFile (processFile P st id).state.files j2 = some f ∧
        (f.status = Status.pending ∨ f.status = Status.error) := by
      intro j2 hj2
      have hne : j2 ≠ id := fun hc => hidnr (hc ▸ hj2)
      rw [processFile_find_ne P st id j2 hne]
      exact hpres j2 (List.mem_cons_of_mem id hj2)
    rcases List.mem_cons.mp hj with rfl | hjr
    · refine ⟨fid, hfid, ?_⟩
      rw [runBatch_cons_state,
        runBatch_find_ne P rest (processFile P st j).state j hidnr]
      exact processFile_find_self P st j fid hfid hsid2
    · obtain ⟨f2, hf2, hout⟩ := ih (processFile P st id).state hndr hpres2 j hjr
      have hne : j ≠ id := fun hc => hidnr (hc ▸ hjr)
      refine ⟨f2, ?_, ?_⟩
      · rw [← processFile_find_ne P st id j hne]
        exact hf2
      · rw [runBatch_cons_state]
        exact hout

theorem runBatch_fail (P : Params) (ids : List Nat) :
    ∀ (st : ProcState) (b : Nat) (fb : FileRec) (msg : String),
    ids.Nodup →
    (∀ j ∈ ids, ∃ f, findFile st.files j = some f ∧
      (f.status = Status.pending ∨ f.status = Status.error)) →
    b ∈ ids → findFile st.files b = some fb → convRes P fb = Except.error msg →
    Event.fileFailed b msg ∈ (runBatch P st ids).events ∧
    (P.opts.stopOnError = true → ∃ e, (runBatch P st ids).thrown = some e) := by
  induction ids with
  | nil => intro st b fb msg _ _ hb _ _; cases hb
  | cons id rest ih =>
    intro st b fb msg hnd hpres hb hfb hcf
    have hndr : rest.Nodup := (List.nodup_cons.mp hnd).2
    have hidnr : id ∉ rest := (List.nodup_cons.mp hnd).1
    rcases List.mem_cons.mp hb with rfl | hbr
    · obtain ⟨fid, hfid, hsid⟩ := hpres b (List.mem_cons_self b rest)
      have hfe : fid = fb := by
        rw [hfid] at hfb
        exact Option.some.inj hfb
      subst hfe
      have hsid2 : fid.status ≠ Status.processing := by
        rcases hsid with h | h <;> simp [h]
      have heq := processFile_eq_err P st b fid msg hfid hsid2 hcf
      constructor
      · rw [runBatch_cons_events]
        apply List.mem_append.mpr
        left
        rw [heq]
        exact List.mem_singleton.mpr rfl
      · intro hstop
        refine ⟨msg, ?_⟩
        rw [runBatch_cons_thrown, heq]
        simp [hstop]
    · have hpres2 : ∀ j2 ∈ rest, ∃ f, findFile (processFile P st id).state.files j2 = some f ∧
          (f.status = Status.pending ∨ f.status = Status.error) := by
        intro j2 hj2
        have hne : j2 ≠ id := fun hc => hidnr (hc ▸ hj2)
        rw [processFile_find_ne P st id j2 hne]
        exact hpres j2 (List.mem_cons_of_mem id hj2)
      have hne : b ≠ id := fun hc => hidnr (hc ▸ hbr)
      have hfb2 : findFile (processFile P st id).state.files b = some fb := by
        rw [processFile_find_ne P st id b hne]
        exact hfb
      obtain ⟨hmem, hthr⟩ := ih (processFile P st id).state b fb msg hndr hpres2 hbr hfb2 hcf
      constructor
      · rw [runBatch_cons_events]
        exact List.mem_append.mpr (Or.inr hmem)
      · intro hstop
        obtain ⟨e, he⟩ := hthr hstop
        rw [runBatch_cons_thrown]
        cases hpf : (processFile P st id).thrown with
        | some e2 => exact ⟨e2, rfl⟩
        | none => exact ⟨e, he⟩

theorem runWindows_cons_abort (P : Params) (st : ProcState) (w : List Nat) (ws : List (List Nat))
    (e : String) (h : (runBatch P st w).thrown = some e) :
    runWindows P st (w :: ws) =
      ⟨(runBatch P st w).state, (runBatch P st w).trace, (runBatch P st w).events, some e⟩ := by
  simp only [runWindows]
  rw [h]

theorem runWindows_cons_ok (P : Params) (st : ProcState) (w : List Nat) (ws : List (List Nat))
    (h : (runBatch P st w).thrown = none) :
    runWindows P st (w :: ws) =
      ⟨(runWindows P (runBatch P st w).state ws).state,
       (runBatch P st w).trace ++ (runWindows P (runBatch P st w).state ws).trace,
       (runBatch P st w).events ++
         (Event.progressUpdate (stateSnapshot (runBatch P st w).state).progress ::
           (runWindows P (runBatch P st w).state ws).events),
       (runWindows P (runBatch P st w).state ws).thrown⟩ := by
  simp only [runWindows]
  rw [h]

theorem runWindows_isProcessing (P : Params) (ws : List (List Nat)) : ∀ st : ProcState,
    (runWindows P st ws).state.isProcessing = st.isProcessing := by
  induction ws with
  | nil => intro st; rfl
  | cons w ws ih =>
    intro st
    cases hb : (runBatch P st w).thrown with
    | some e =>
      rw [runWindows_cons_abort P st w ws e hb]
      exact runBatch_isProcessing P w st
    | none =>
      rw [runWindows_cons_ok P st w ws hb]
      show (runWindows P (runBatch P st w).state ws).state.isProcessing = _
      rw [ih, runBatch_isProcessing]

theorem runWindows_ids (P : Params) (ws : List (List Nat)) : ∀ st : ProcState,
    (runWindows P st ws).state.files.map (fun f => f.id) = st.files.map (fun f => f.id) := by
  induction ws with
  | nil => intro st; rfl
  | cons w ws ih =>
    intro st
    cases hb : (runBatch P st w).thrown with
    | some e =>
      rw [runWindows_cons_abort P st w ws e hb]
      exact runBatch_ids P w st
    | none =>
      rw [runWindows_cons_ok P st w ws hb]
      show (runWindows P (runBatch P st w).state ws).state.files.map _ = _
      rw [ih, runBatch_ids]

theorem runWindows_find_ne (P : Params) (ws : List (List Nat)) :
    ∀ (st : ProcState) (j : Nat), j ∉ ws.flatten →
    findFile (runWindows P st ws).state.files j = findFile st.files j := by
  induction ws with
  | nil => intro st j hj; rfl
  | cons w ws ih =>
    intro st j hj
    rw [List.flatten_cons] at hj
    have hjw : j ∉ w := fun hc => hj (List.mem_append.mpr (Or.inl hc))
    have hjws : j ∉ ws.flatten := fun hc => hj (List.mem_append.mpr (Or.inr hc))
    cases hb : (runBatch P st w).thrown with
    | some e =>
      rw [runWindows_cons_abort P st w ws e hb]
      exact runBatch_find_ne P w st j hjw
    | none =>
      rw [runWindows_cons_ok P st w ws hb]
      show findFile (runWindows P (runBatch P st w).state ws).state.files j = _
      rw [ih _ j hjws, runBatch_find_ne P w st j hjw]

theorem runWindows_count (P : Params) (ws : List (List Nat)) : ∀ st : ProcState,
    countProcessing st.files = 0 → (st.files.map (fun f => f.id)).Nodup →
    countProcessing (runWindows P st ws).state.files = 0 ∧
    ∀ s ∈ (runWindows P st ws).trace, countProcessing s.files ≤ 1 := by
  induction ws with
  | nil =>
    intro st h0 hnd
    exact ⟨h0, by intro s hs; cases hs⟩
  | cons w ws ih =>
    intro st h0 hnd
    obtain ⟨hb0, hbtr⟩ := runBatch_count P w st h0 hnd
    have hnd2 : ((runBatch P st w).state.files.map (fun f => f.id)).Nodup := by
      rw [runBatch_ids]; exact hnd
    cases hb : (runBatch P st w).thrown with
    | some e =>
      rw [runWindows_cons_abort P st w ws e hb]
      exact ⟨hb0, hbtr⟩
    | none =>
      rw [runWindows_cons_ok P st w ws hb]
      obtain ⟨hw0, hwtr⟩ := ih (runBatch P st w).state hb0 hnd2
      refine ⟨hw0, ?_⟩
      intro s hs
      rcases List.mem_append.mp hs with hs | hs
      · exact hbtr s hs
      · exact hwtr s hs

theorem runWindows_thrown_none (P : Params) (ws : List (List Nat))
    (hstop : P.opts.stopOnError = false) : ∀ st,
    (runWindows P st ws).thrown = none := by
  induction ws with
  | nil => intro st; rfl
  | cons w ws ih =>
    intro st
    rw [runWindows_cons_ok P st w ws (runBatch_thrown_none P w hstop st)]
    exact ih _

theorem runWindows_outcome (P : Params) (ws : List (List Nat)) : ∀ st : ProcState,
    ws.flatten.Nodup →
    (∀ j ∈ ws.flatten, ∃ f, findFile st.files j = some f ∧
      (f.status = Status.pending ∨ f.status = Status.error)) →
    (runWindows P st ws).thrown = none →
    ∀ j ∈ ws.flatten, ∃ f, findFile st.files j = some f ∧
      findFile (runWindows P st ws).state.files j = some (applyConv P f) := by
  induction ws with
  | nil => intro st _ _ _ j hj; cases hj
  | cons w ws ih =>
    intro st hnd hpres hth j hj
    cases hb : (runBatch P st w).thrown with
    | some e =>
      rw [runWindows_cons_abort P st w ws e hb] at hth
      cases hth
    | none =>
      rw [runWindows_cons_ok P st w ws hb] at hth ⊢
      simp only at hth
      rw [List.flatten_cons] at hnd hpres hj
      have hdisj : ∀ x ∈ w, x ∉ ws.flatten := fun x hx hx2 =>
        (List.disjoint_of_nodup_append hnd) hx hx2
      have hndw : w.Nodup := hnd.of_append_left
      have hndws : ws.flatten.Nodup := hnd.of_append_right
      rcases List.mem_append.mp hj with hjw | hjws
      · obtain ⟨f, hf, hout⟩ := runBatch_outcome P w st hndw
          (fun j2 hj2 => hpres j2 (List.mem_append.mpr (Or.inl hj2))) j hjw
        refine ⟨f, hf, ?_⟩
        show findFile (runWindows P (runBatch P st w).state ws).state.files j = _
        rw [runWindows_find_ne P ws _ j (hdisj j hjw)]
        exact hout
      · have hpres2 : ∀ j2 ∈ ws.flatten,
            ∃ f, findFile (runBatch P st w).state.files j2 = some f ∧
              (f.status = Status.pending ∨ f.status = Status.error) := by
          intro j2 hj2
          have hj2w : j2 ∉ w := fun hc => hdisj j2 hc hj2
          rw [runBatch_find_ne P w st j2 hj2w]
          exact hpres j2 (List.mem_append.mpr (Or.inr hj2))
        obtain ⟨f, hf, hout⟩ := ih (runBatch P st w).state hndws hpres2 hth j hjws
        have hjw : j ∉ w := fun hc => hdisj j hc hjws
        refine ⟨f, ?_, ?_⟩
        · rw [← runBatch_find_ne P w st j hjw]
          exact hf
        · show findFile (runWindows P (runBatch P st w).state ws).state.files j = _
          exact hout

theorem eligible_status (opts : BatchOptions) (f : FileRec) (h : eligible opts f = true) :
    f.status = Status.pending ∨ f.status = Status.error := by
  unfold eligible at h
  cases hst : f.status
  · exact Or.inl rfl
  · rw [hst] at h; simp at h
  · rw [hst] at h; simp at h
  · exact Or.inr rfl

theorem findFile_of_mem_nodup (l : List FileRec) (f : FileRec)
    (hnd : (l.map (fun x => x.id)).Nodup) (hf : f ∈ l) : findFile l f.id = some f := by
  induction l with
  | nil => cases hf
  | cons x xs ih =>
    simp only [List.map_cons, List.nodup_cons] at hnd
    rcases List.mem_cons.mp hf with rfl | hf2
    · simp [findFile]
    · have hne : x.id ≠ f.id := by
        intro hc
        exact hnd.1 (hc ▸ List.mem_map_of_mem (fun y => y.id) hf2)
      simp only [findFile, if_neg hne]
      exact ih hnd.2 hf2

theorem mem_eligibleIds (opts : BatchOptions) (files : List FileRec) (j : Nat)
    (hj : j ∈ eligibleIds opts files) :
    ∃ f ∈ files, eligible opts f = true ∧ f.id = j := by
  unfold eligibleIds at hj
  obtain ⟨f, hfmem, hfid⟩ := List.mem_map.mp hj
  obtain ⟨hmem, helig⟩ := List.mem_filter.mp hfmem
  exact ⟨f, hmem, helig, hfid⟩

theorem eligibleIds_nodup (opts : BatchOptions) (files : List FileRec)
    (hnd : (files.map (fun f => f.id)).Nodup) : (eligibleIds opts files).Nodup := by
  unfold eligibleIds
  have hsub : ((files.filter (eligible opts)).map (fun f => f.id)).Sublist
      (files.map (fun f => f.id)) := (List.filter_sublist files).map _
  exact hnd.sublist hsub

theorem eligibleIds_present (opts : BatchOptions) (files : List FileRec)
    (hnd : (files.map (fun f => f.id)).Nodup) : ∀ j ∈ eligibleIds opts files,
    ∃ f, findFile files j = some f ∧ (f.status = Status.pending ∨ f.status = Status.error) := by
  intro j hj
  obtain ⟨f, hfmem, helig, hfid⟩ := mem_eligibleIds opts files j hj
  exact ⟨f, hfid ▸ findFile_of_mem_nodup files f hnd hfmem, eligible_status opts f helig⟩

theorem chunksFuel_congr (k : Nat) (hk : k ≠ 0) : ∀ (fuel fuel2 : Nat) (l : List Nat),
    l.length ≤ fuel → l.length ≤ fuel2 → chunksFuel k fuel l = chunksFuel k fuel2 l := by
  intro fuel
  induction fuel with
  | zero =>
    intro fuel2 l h1 h2
    cases l with
    | nil => cases fuel2 <;> rfl
    | cons x xs => simp at h1
  | succ n ih =>
    intro fuel2 l h1 h2
    cases l with
    | nil => cases fuel2 <;> rfl
    | cons x xs =>
      cases fuel2 with
      | zero => simp at h2
      | succ m =>
        simp only [chunksFuel]
        congr 1
        apply ih
        · rw [List.length_drop]
          simp only [List.length_cons] at h1 ⊢
          omega
        · rw [List.length_drop]
          simp only [List.length_cons] at h2 ⊢
          omega

theorem chunks_cons (k : Nat) (hk : k ≠ 0) (l : List Nat) (hl : l ≠ []) :
    chunks k l = l.take k :: chunks k (l.drop k) := by
  cases l with
  | nil => cases hl rfl
  | cons x xs =>
    show chunksFuel k (xs.length + 1) (x :: xs) = _
    simp only [chunksFuel]
    congr 1
    apply chunksFuel_congr k hk
    · rw [List.length_drop]
      simp only [List.length_cons]
      omega
    · exact le_refl _

theorem chunks_flatten (k : Nat) (hk : k ≠ 0) : (l : List Nat) → (chunks k l).flatten = l
  | [] => rfl
  | x :: xs => by
    rw [chunks_cons k hk (x :: xs) (by simp), List.flatten_cons,
      chunks_flatten k hk ((x :: xs).drop k), List.take_append_drop]
termination_by l => l.length
decreasing_by
  simp only [List.length_drop, List.length_cons]
  omega

theorem countProcessing_eq_zero (l : List FileRec)
    (h : ∀ f ∈ l, f.status ≠ Status.processing) : countProcessing l = 0 := by
  unfold countProcessing
  rw [List.length_eq_zero, List.filter_eq_nil_iff]
  intro f hf
  simp [h f hf]

theorem processAll_busy (P : Params) (st : ProcState) (h : st.isProcessing = true) :
    processAll P st = ⟨st, [], [], none⟩ := by
  unfold processAll
  rw [h]
  simp

theorem processAll_empty (P : Params) (st : ProcState) (hflag : st.isProcessing = false)
    (he : eligibleIds P.opts st.files = []) :
    processAll P st =
      ⟨⟨st.files, false⟩,
       [{ st with isProcessing := true }, ⟨st.files, false⟩],
       [Event.progressUpdate (stateSnapshot { st with isProcessing := true }).progress,
        Event.processingComplete], none⟩ := by
  unfold processAll
  rw [hflag, he]
  simp

theorem processAll_run_ok (P : Params) (st : ProcState) (hflag : st.isProcessing = false)
    (hne : eligibleIds P.opts st.files ≠ [])
    (hth : (runWindows P { st with isProcessing := true }
      (chunks P.opts.maxConcurrent (eligibleIds P.opts st.files))).thrown = none) :
    processAll P st =
      ⟨⟨(runWindows P { st with isProcessing := true }
          (chunks P.opts.maxConcurrent (eligibleIds P.opts st.files))).state.files, false⟩,
       { st with isProcessing := true } ::
         (runWindows P { st with isProcessing := true }
           (chunks P.opts.maxConcurrent (eligibleIds P.opts st.files))).trace ++
         [⟨(runWindows P { st with isProcessing := true }
             (chunks P.opts.maxConcurrent (eligibleIds P.opts st.files))).state.files, false⟩],
       (runWindows P { st with isProcessing := true }
         (chunks P.opts.maxConcurrent (eligibleIds P.opts st.files))).events ++
         [Event.processingComplete], none⟩ := by
  unfold processAll
  rw [hflag]
  simp only [Bool.false_eq_true, if_false]
  rw [if_neg (by simpa using hne), hth]

theorem processAll_run_err (P : Params) (st : ProcState) (e : String)
    (hflag : st.isProcessing = false)
    (hne : eligibleIds P.opts st.files ≠ [])
    (hth : (runWindows P { st with isProcessing := true }
      (chunks P.opts.maxConcurrent (eligibleIds P.opts st.files))).thrown = some e) :
    processAll P st =
      ⟨⟨(runWindows P { st with isProcessing := true }
          (chunks P.opts.maxConcurrent (eligibleIds P.opts st.files))).state.files, false⟩,
       { st with isProcessing := true } ::
         (runWindows P { st with isProcessing := true }
           (chunks P.opts.maxConcurrent (eligibleIds P.opts st.files))).trace ++
         [⟨(runWindows P { st with isProcessing := true }
             (chunks P.opts.maxConcurrent (eligibleIds P.opts st.files))).state.files, false⟩],
       (runWindows P { st with isProcessing := true }
         (chunks P.opts.maxConcurrent (eligibleIds P.opts st.files))).events ++
         [Event.processingError e], none⟩ := by
  unfold processAll
  rw [hflag]
  simp only [Bool.false_eq_true, if_false]
  rw [if_neg (by simpa using hne), hth]

theorem runWindows_append_ok (P : Params) (ws1 ws2 : List (List Nat)) : ∀ st : ProcState,
    (runWindows P st ws1).thrown = none →
    runWindows P st (ws1 ++ ws2) =
      ⟨(runWindows P (runWindows P st ws1).state ws2).state,
       (runWindows P st ws1).trace ++ (runWindows P (runWindows P st ws1).state ws2).trace,
       (runWindows P st ws1).events ++ (runWindows P (runWindows P st ws1).state ws2).events,
       (runWindows P (runWindows P st ws1).state ws2).thrown⟩ := by
  induction ws1 with
  | nil => intro st h; rfl
  | cons w ws ih =>
    intro st h
    cases hb : (runBatch P st w).thrown with
    | some e =>
      rw [runWindows_cons_abort P st w ws e hb] at h
      cases h
    | none =>
      rw [runWindows_cons_ok P st w ws hb] at h
      simp only at h
      show runWindows P st (w :: (ws ++ ws2)) = _
      rw [runWindows_cons_ok P st w (ws ++ ws2) hb, ih _ h,
        runWindows_cons_ok P st w ws hb]
      simp [List.append_assoc]

/-- C1: during a single `processAll` run with `maxConcurrent ≥ 1`, started
from a quiescent store (no record in `processing`, unique ids), at no
instant of the run's trace are more than `maxConcurrent` records
simultaneously in `processing` status (in this single-threaded model at
most one record is `processing` at any instant, hence at most `k`); and the
eligible ids are partitioned into the consecutive `chunks` windows of size
`maxConcurrent`, windows running strictly sequentially: after the first `n`
windows complete (no abort), every id dispatched in them holds a record in
terminal (`completed` or `error`) status before the next window starts —
the final conjunct shows the full window loop literally factors through
that intermediate state, so the remaining windows start from it. -/
theorem claim_C1 (P : Params) (st : ProcState)
    (hk1 : 1 ≤ P.opts.maxConcurrent)
    (hnd : (st.files.map (fun f => f.id)).Nodup)
    (hnp : ∀ f ∈ st.files, f.status ≠ Status.processing) :
    (∀ s ∈ (processAll P st).trace, countProcessing s.files ≤ P.opts.maxConcurrent) ∧
    (∀ n,
      (runWindows P { st with isProcessing := true }
        ((chunks P.opts.maxConcurrent (eligibleIds P.opts st.files)).take n)).thrown = none →
      ∀ j ∈ ((chunks P.opts.maxConcurrent (eligibleIds P.opts st.files)).take n).flatten,
        ∃ f, findFile (runWindows P { st with isProcessing := true }
            ((chunks P.opts.maxConcurrent (eligibleIds P.opts st.files)).take n)).state.files j
              = some f ∧
          (f.status = Status.completed ∨ f.status = Status.error)) ∧
    (∀ n,
      (runWindows P { st with isProcessing := true }
        ((chunks P.opts.maxConcurrent (eligibleIds P.opts st.files)).take n)).thrown = none →
      runWindows P { st with isProcessing := true }
          (chunks P.opts.maxConcurrent (eligibleIds P.opts st.files)) =
        ⟨(runWindows P (runWindows P { st with isProcessing := true }
            ((chunks P.opts.maxConcurrent (eligibleIds P.opts st.files)).take n)).state
            ((chunks P.opts.maxConcurrent (eligibleIds P.opts st.files)).drop n)).state,
         (runWindows P { st with isProcessing := true }
            ((chunks P.opts.maxConcurrent (eligibleIds P.opts st.files)).take n)).trace ++
           (runWindows P (runWindows P { st with isProcessing := true }
              ((chunks P.opts.maxConcurrent (eligibleIds P.opts st.files)).take n)).state
              ((chunks P.opts.maxConcurrent (eligibleIds P.opts st.files)).drop n)).trace,
         (runWindows P { st with isProcessing := true }
            ((chunks P.opts.maxConcurrent (eligibleIds P.opts st.files)).take n)).events ++
           (runWindows P (runWindows P { st with isProcessing := true }
              ((chunks P.opts.maxConcurrent (eligibleIds P.opts st.files)).take n)).state
              ((chunks P.opts.maxConcurrent (eligibleIds P.opts st.files)).drop n)).events,
         (runWindows P (runWindows P { st with isProcessing := true }
            ((chunks P.opts.maxConcurrent (eligibleIds P.opts st.files)).take n)).state
            ((chunks P.opts.maxConcurrent (eligibleIds P.opts st.files)).drop n)).thrown⟩) := by
  have h0 : countProcessing st.files = 0 := countProcessing_eq_zero st.files hnp
  have hkne : P.opts.maxConcurrent ≠ 0 := by omega
  refine ⟨?_, ?_, ?_⟩
  · cases hflag : st.isProcessing with
    | true =>
      rw [processAll_busy P st hflag]
      intro s hs
      cases hs
    | false =>
      by_cases he : eligibleIds P.opts st.files = []
      · rw [processAll_empty P st hflag he]
        intro s hs
        rcases List.mem_cons.mp hs with rfl | hs2
        · exact le_trans (le_of_eq h0) (by omega)
        rcases List.mem_cons.mp hs2 with rfl | hs3
        · exact le_trans (le_of_eq h0) (by omega)
        · cases hs3
      · obtain ⟨hw0, hwtr⟩ := runWindows_count P
          (chunks P.opts.maxConcurrent (eligibleIds P.opts st.files))
          { st with isProcessing := true } h0 hnd
        cases hth : (runWindows P { st with isProcessing := true }
            (chunks P.opts.maxConcurrent (eligibleIds P.opts st.files))).thrown with
        | none =>
          rw [processAll_run_ok P st hflag he hth]
          intro s hs
          rcases List.mem_cons.mp hs with rfl | hs2
          · exact le_trans (le_of_eq h0) (by omega)
          rcases List.mem_append.mp hs2 with hs3 | hs3
          · exact le_trans (hwtr s hs3) hk1
          · rcases List.mem_singleton.mp hs3 with rfl
            exact le_trans (le_of_eq hw0) (by omega)
        | some e =>
          rw [processAll_run_err P st e hflag he hth]
          intro s hs
          rcases List.mem_cons.mp hs with rfl | hs2
          · exact le_trans (le_of_eq h0) (by omega)
          rcases List.mem_append.mp hs2 with hs3 | hs3
          · exact le_trans (hwtr s hs3) hk1
          · rcases List.mem_singleton.mp hs3 with rfl
            exact le_trans (le_of_eq hw0) (by omega)
  · intro n hth j hj
    have hflat : (chunks P.opts.maxConcurrent (eligibleIds P.opts st.files)).flatten =
        eligibleIds P.opts st.files := chunks_flatten _ hkne _
    have hsplit :
        ((chunks P.opts.maxConcurrent (eligibleIds P.opts st.files)).take n).flatten ++
          ((chunks P.opts.maxConcurrent (eligibleIds P.opts st.files)).drop n).flatten =
          eligibleIds P.opts st.files := by
      rw [← List.flatten_append, List.take_append_drop]
      exact hflat
    have hndE : (eligibleIds P.opts st.files).Nodup := eligibleIds_nodup P.opts st.files hnd
    have hndT :
        (((chunks P.opts.maxConcurrent (eligibleIds P.opts st.files)).take n).flatten).Nodup := by
      have h2 := hsplit ▸ hndE
      exact h2.of_append_left
    have hpres : ∀ j2 ∈ ((chunks P.opts.maxConcurrent (eligibleIds P.opts st.files)).take n).flatten,
        ∃ f, findFile st.files j2 = some f ∧
          (f.status = Status.pending ∨ f.status = Status.error) := by
      intro j2 hj2
      apply eligibleIds_present P.opts st.files hnd
      rw [← hsplit]
      exact List.mem_append.mpr (Or.inl hj2)
    obtain ⟨f, hf, hout⟩ := runWindows_outcome P
      ((chunks P.opts.maxConcurrent (eligibleIds P.opts st.files)).take n)
      { st with isProcessing := true } hndT hpres hth j hj
    exact ⟨applyConv P f, hout, applyConv_status P f⟩
  · intro n hth
    have hcomp := runWindows_append_ok P
      ((chunks P.opts.maxConcurrent (eligibleIds P.opts st.files)).take n)
      ((chunks P.opts.maxConcurrent (eligibleIds P.opts st.files)).drop n)
      { st with isProcessing := true } hth
    rw [List.take_append_drop] at hcomp
    exact hcomp

theorem claim_C1_witness :
    countProcessing ((processAll exParams exSt3).trace.getD 1 ⟨[], false⟩).files ≤
      exParams.opts.maxConcurrent ∧
    ∃ f, findFile (runWindows exParams { exSt3 with isProcessing := true }
        ((chunks exParams.opts.maxConcurrent
          (eligibleIds exParams.opts exSt3.files)).take 1)).state.files 1 = some f ∧
      (f.status = Status.completed ∨ f.status = Status.error) :=
  ⟨(claim_C1 exParams exSt3 (by decide) (by decide) (by decide)).1 _ (by decide),
   (claim_C1 exParams exSt3 (by decide) (by decide) (by decide)).2.1 1 (by decide) 1 (by decide)⟩

/-- C4: with `stopOnError = true` and an eligible set spanning at least two
windows, if a record of window 1 has failing conversion then that record
ends in `error` with the message recorded and a file-failed event emitted,
every record of window 2 is left untouched (in particular a `pending`
record stays `pending`), `processingComplete` is not emitted, and
`processingError` is emitted instead. -/
theorem claim_C4 (P : Params) (st : ProcState) (b : Nat) (fb : FileRec) (msg : String)
    (w1 w2 : List Nat) (rest : List (List Nat))
    (hflag : st.isProcessing = false)
    (hnd : (st.files.map (fun f => f.id)).Nodup)
    (hstop : P.opts.stopOnError = true)
    (hk : P.opts.maxConcurrent ≠ 0)
    (hw : chunks P.opts.maxConcurrent (eligibleIds P.opts st.files) = w1 :: w2 :: rest)
    (hb : b ∈ w1)
    (hfb : findFile st.files b = some fb)
    (hcf : convRes P fb = Except.error msg) :
    (∃ f, findFile (processAll P st).state.files b = some f ∧
      f.status = Status.error ∧ f.error = some msg) ∧
    Event.fileFailed b msg ∈ (processAll P st).events ∧
    (∀ j ∈ w2, findFile (processAll P st).state.files j = findFile st.files j) ∧
    Event.processingComplete ∉ (processAll P st).events ∧
    (∃ e, Event.processingError e ∈ (processAll P st).events) := by
  have hflat : (chunks P.opts.maxConcurrent (eligibleIds P.opts st.files)).flatten =
      eligibleIds P.opts st.files := chunks_flatten _ hk _
  have hne : eligibleIds P.opts st.files ≠ [] := by
    intro hc
    rw [hc] at hw
    exact absurd hw (by simp [chunks, chunksFuel])
  have hndE : (eligibleIds P.opts st.files).Nodup := eligibleIds_nodup P.opts st.files hnd
  rw [hw, List.flatten_cons] at hflat
  have hndA : (w1 ++ (w2 :: rest).flatten).Nodup := hflat ▸ hndE
  have hndW1 : w1.Nodup := hndA.of_append_left
  have hdisj : ∀ x ∈ w1, x ∉ (w2 :: rest).flatten :=
    fun x hx => (List.disjoint_of_nodup_append hndA) hx
  have hpres : ∀ j ∈ w1, ∃ f, findFile st.files j = some f ∧
      (f.status = Status.pending ∨ f.status = Status.error) := by
    intro j hj
    apply eligibleIds_present P.opts st.files hnd
    exact hflat ▸ List.mem_append.mpr (Or.inl hj)
  obtain ⟨hmemF, hthr⟩ :=
    runBatch_fail P w1 { st with isProcessing := true } b fb msg hndW1 hpres hb hfb hcf
  obtain ⟨e, he⟩ := hthr hstop
  have hrw : runWindows P { st with isProcessing := true } (w1 :: w2 :: rest) =
      ⟨(runBatch P { st with isProcessing := true } w1).state,
       (runBatch P { st with isProcessing := true } w1).trace,
       (runBatch P { st with isProcessing := true } w1).events, some e⟩ :=
    runWindows_cons_abort P { st with isProcessing := true } w1 (w2 :: rest) e he
  have hth : (runWindows P { st with isProcessing := true }
      (chunks P.opts.maxConcurrent (eligibleIds P.opts st.files))).thrown = some e := by
    rw [hw, hrw]
  rw [processAll_run_err P st e hflag hne hth, hw, hrw]
  obtain ⟨f0, hf0, hout⟩ :=
    runBatch_outcome P w1 { st with isProcessing := true } hndW1 hpres b hb
  have hf0eq : f0 = fb := by
    rw [hf0] at hfb
    exact Option.some.inj hfb
  subst hf0eq
  refine ⟨⟨applyConv P f0, hout, ?_, ?_⟩, ?_, ?_, ?_, ?_⟩
  · unfold applyConv
    rw [hcf]
  · unfold applyConv
    rw [hcf]
  · exact List.mem_append.mpr (Or.inl hmemF)
  · intro j hj
    have hjw1 : j ∉ w1 := fun hc =>
      hdisj j hc (List.mem_append.mpr (Or.inl hj))
    exact runBatch_find_ne P w1 { st with isProcessing := true } j hjw1
  · intro hmem
    rcases List.mem_append.mp hmem with hmem | hmem
    · rcases runBatch_events_cases P w1 { st with isProcessing := true }
        Event.processingComplete hmem with ⟨i, hi⟩ | ⟨i, m, hi⟩ <;> cases hi
    · rcases List.mem_singleton.mp hmem with hi
      cases hi
  · exact ⟨e, List.mem_append.mpr (Or.inr (List.mem_singleton.mpr rfl))⟩

def cexP4 : Params :=
  ⟨exTurndown, exDom,
    { maxConcurrent := 2, autoRetry := false, stopOnError := true
      namingConvention := Naming.original }⟩

def exSt4 : ProcState := { files := [exFileA, exFileBad, exFileC], isProcessing := false }

theorem claim_C4_witness :
    ∃ f, findFile (processAll cexP4 exSt4).state.files 2 = some f ∧
      f.status = Status.error ∧ f.error = some "Conversion failed: boom" :=
  (claim_C4 cexP4 exSt4 2 exFileBad "Conversion failed: boom" [1, 2] [3] []
    rfl (by decide) rfl (by decide) (by decide) (by decide) (by decide) rfl).1

theorem resetErrors_ids (l : List FileRec) :
    (resetErrors l).map (fun f => f.id) = l.map (fun f => f.id) := by
  unfold resetErrors
  rw [List.map_map]
  apply List.map_congr_left
  intro f hf
  by_cases h : f.status = Status.error <;> simp [h]

theorem resetErrors_mem (l : List FileRec) (f : FileRec) (hf : f ∈ l)
    (he : f.status = Status.error) :
    { f with status := Status.pending, error := none } ∈ resetErrors l := by
  unfold resetErrors
  have h2 := List.mem_map_of_mem (fun f =>
    if f.status = Status.error then { f with status := Status.pending, error := none } else f) hf
  simpa [he] using h2

theorem eligibleIds_mem (opts : BatchOptions) (files : List FileRec) (f : FileRec)
    (hf : f ∈ files) (he : eligible opts f = true) : f.id ∈ eligibleIds opts files := by
  unfold eligibleIds
  exact List.mem_map_of_mem _ (List.mem_filter.mpr ⟨hf, he⟩)

def cexP6 : Params :=
  ⟨exTurndown, exDom,
    { maxConcurrent := 1, autoRetry := false, stopOnError := true
      namingConvention := Naming.original }⟩

def cexSt6 : ProcState :=
  { files :=
      [{ id := 1, name := "a.html", originalContent := "BAD", markdownContent := ""
         status := Status.error, error := some "Conversion failed: boom" },
       { id := 2, name := "b.html", originalContent := "y", markdownContent := ""
         status := Status.error, error := some "Conversion failed: boom" }]
    isProcessing := false }

/-- C6, counterexample to the claim as stated: with `stopOnError = true` and
`maxConcurrent = 1`, two previously-failed records are reset to `pending`;
the first fails again, aborting the remaining windows, and the second record
— previously `error` — is still `pending` after `retryFailedFiles` resolves,
even though the conversion function is deterministic. -/
theorem claim_C6_cex :
    (findFile cexSt6.files 2).map (fun f => f.status) = some Status.error ∧
    (findFile (retryFailedFiles cexP6 cexSt6).state.files 2).map (fun f => f.status) =
      some Status.pending := by
  decide

/-- C6, amended: `retryFailedFiles` first resets every `error` record to
`pending` with its `error` field cleared, then invokes `processAll`; and
provided `stopOnError` is disabled (and the store is quiescent, with unique
ids and a positive `maxConcurrent`), after the call resolves every record
that was `error` before the call ends `completed` or `error` — none remains
`pending`.  (With `stopOnError` enabled a failure aborts the remaining
windows and later reset records do remain `pending`.) -/
theorem claim_C6 (P : Params) (st : ProcState)
    (hflag : st.isProcessing = false)
    (hnd : (st.files.map (fun f => f.id)).Nodup)
    (hstop : P.opts.stopOnError = false)
    (hk : P.opts.maxConcurrent ≠ 0) :
    retryFailedFiles P st = processAll P { st with files := resetErrors st.files } ∧
    ∀ f ∈ st.files, f.status = Status.error →
      ∃ f2, findFile (retryFailedFiles P st).state.files f.id = some f2 ∧
        (f2.status = Status.completed ∨ f2.status = Status.error) := by
  refine ⟨rfl, ?_⟩
  intro f hf he
  have hmem : { f with status := Status.pending, error := none } ∈ resetErrors st.files :=
    resetErrors_mem st.files f hf he
  have hndR : ((resetErrors st.files).map (fun x => x.id)).Nodup := by
    rw [resetErrors_ids]
    exact hnd
  have helig : eligible P.opts { f with status := Status.pending, error := none } = true := by
    simp [eligible]
  have hidmem : f.id ∈ eligibleIds P.opts (resetErrors st.files) := by
    have h3 := eligibleIds_mem P.opts (resetErrors st.files)
      { f with status := Status.pending, error := none } hmem helig
    exact h3
  have hneE : eligibleIds P.opts (resetErrors st.files) ≠ [] := by
    intro hc
    rw [hc] at hidmem
    cases hidmem
  have hth : (runWindows P
      { { st with files := resetErrors st.files } with isProcessing := true }
      (chunks P.opts.maxConcurrent (eligibleIds P.opts (resetErrors st.files)))).thrown = none :=
    runWindows_thrown_none P _ hstop _
  show ∃ f2, findFile
      (processAll P { st with files := resetErrors st.files }).state.files f.id = some f2 ∧
    (f2.status = Status.completed ∨ f2.status = Status.error)
  rw [processAll_run_ok P { st with files := resetErrors st.files } hflag hneE hth]
  have hflat : (chunks P.opts.maxConcurrent
      (eligibleIds P.opts (resetErrors st.files))).flatten =
      eligibleIds P.opts (resetErrors st.files) := chunks_flatten _ hk _
  have hndE := eligibleIds_nodup P.opts (resetErrors st.files) hndR
  obtain ⟨f0, hf0, hout⟩ := runWindows_outcome P
    (chunks P.opts.maxConcurrent (eligibleIds P.opts (resetErrors st.files)))
    { { st with files := resetErrors st.files } with isProcessing := true }
    (by rw [hflat]; exact hndE)
    (by
      intro j hj
      rw [hflat] at hj
      exact eligibleIds_present P.opts (resetErrors st.files) hndR j hj)
    hth f.id (by rw [hflat]; exact hidmem)
  exact ⟨applyConv P f0, hout, applyConv_status P f0⟩

def stW6 : ProcState :=
  { files :=
      [{ id := 1, name := "a.html", originalContent := "BAD", markdownContent := ""
         status := Status.error, error := some "Conversion failed: boom" },
       { id := 2, name := "b.html", originalContent := "y", markdownContent := ""
         status := Status.error, error := some "old" }]
    isProcessing := false }

theorem claim_C6_witness :
    ∃ f2, findFile (retryFailedFiles exParams stW6).state.files 2 = some f2 ∧
      (f2.status = Status.completed ∨ f2.status = Status.error) := by
  have h := (claim_C6 exParams stW6 rfl (by decide) rfl (by decide)).2
  exact h { id := 2, name := "b.html", originalContent := "y", markdownContent := ""
            status := Status.error, error := some "old" } (by decide) rfl
